import Mathlib

/-!
Shallow embedding of the Manifold repository: the demo notebook
(src/bindings/jupyter/notebooks/manifold.ipynb) is embedded from its source,
with random draws from uniform(0, 1) made explicit function arguments and
Python real arithmetic modelled by the rationals.  The analytical engine
behind the widget (normalizer, scorer, partitioner, distribution comparator)
has no code in the repository, so those components are modelled from the
specification, as marked on each definition.
-/

namespace Manifold

/-- A feature value is either numeric or categorical (string), per the
data model of the specification. -/
inductive Value where
  | num (q : ℚ)
  | cat (s : String)
deriving DecidableEq

/-- Modelled from the spec: the error taxonomy of the engine (its code is
not part of the repository). -/
inductive ManifoldError where
  | SchemaMismatchError
  | TypeInferenceError
  | LabelNotFoundError
  | EmptyGroupError
deriving DecidableEq

/-! ## The demo notebook (embedded from the source) -/

/-- The fixed class list of the notebook: classes = ['true', 'false']. -/
def nbClasses : List String := ["true", "false"]

/-- The notebook's categorical sampler:
categories[int(math.floor(uniform(0, 1) * len(categories)))], with the
draw u of uniform(0, 1) made an explicit argument. -/
def generate_random_categorical_value (categories : List String) (u : ℚ) : String :=
  categories.getD (Int.toNat ⌊u * (categories.length : ℚ)⌋) ""

/-- One prediction entry of the notebook: the mapping
with classes[0] bound to d and classes[1] bound to 1 - d. -/
def yPredEntry (d : ℚ) : List (String × ℚ) :=
  [(nbClasses.getD 0 "", d), (nbClasses.getD 1 "", 1 - d)]

/-- The notebook's yPred: for each model i < numModels and each instance
j < numInstances, one entry built from the draw d = draw i j of uniform(0, 1). -/
def yPredGen (draw : ℕ → ℕ → ℚ) (numModels numInstances : ℕ) :
    List (List (List (String × ℚ))) :=
  (List.range numModels).map fun i =>
    (List.range numInstances).map fun j => yPredEntry (draw i j)

/-- num_instances = 100 in the notebook. -/
def num_instances : ℕ := 100

/-- The notebook's feature list x: per instance, feature_0 is
math.floor(uniform(1, 1000)) and feature_1 a random category from
['A', 'B', 'C', 'D']; the uniform draws are explicit arguments. -/
def xGen (fdraw cdraw : ℕ → ℚ) : List (List (String × Value)) :=
  (List.range num_instances).map fun i =>
    [("feature_0", Value.num ((⌊fdraw i⌋ : ℤ) : ℚ)),
     ("feature_1", Value.cat (generate_random_categorical_value ["A", "B", "C", "D"] (cdraw i)))]

/-- The notebook's ground-truth list yTrue: one random class per instance. -/
def yTrueGen (tdraw : ℕ → ℚ) : List String :=
  (List.range num_instances).map fun i =>
    generate_random_categorical_value nbClasses (tdraw i)

/-- Reading the i-th entry of a mapped range at a valid index. -/
theorem getD_map_range {α : Type} (f : ℕ → α) (n i : ℕ) (h : i < n) (d : α) :
    ((List.range n).map f).getD i d = f i := by
  simp [List.getD_eq_getElem?_getD, List.getElem?_map, List.getElem?_range h]

/-- Claim C9: for a non-empty category list and a draw u with 0 ≤ u < 1, the
index int(floor(u * len(categories))) lies in [0, len(categories) - 1], so
generate_random_categorical_value returns an element of the list. -/
theorem categorical_value_in_bounds (categories : List String) (u : ℚ)
    (hne : categories ≠ []) (h0 : 0 ≤ u) (h1 : u < 1) :
    Int.toNat ⌊u * (categories.length : ℚ)⌋ < categories.length ∧
    generate_random_categorical_value categories u ∈ categories := by
  have hlen : 0 < categories.length := List.length_pos.mpr hne
  have hlenq : (0 : ℚ) < (categories.length : ℚ) := by exact_mod_cast hlen
  have hn0 : (0 : ℚ) ≤ u * (categories.length : ℚ) := mul_nonneg h0 (le_of_lt hlenq)
  have hflo : 0 ≤ ⌊u * (categories.length : ℚ)⌋ := Int.floor_nonneg.mpr hn0
  have hlt : ⌊u * (categories.length : ℚ)⌋ < (categories.length : ℤ) := by
    rw [Int.floor_lt]
    push_cast
    calc u * (categories.length : ℚ) < 1 * (categories.length : ℚ) :=
          mul_lt_mul_of_pos_right h1 hlenq
      _ = (categories.length : ℚ) := one_mul _
  have hidx : Int.toNat ⌊u * (categories.length : ℚ)⌋ < categories.length :=
    (Int.toNat_lt hflo).mpr hlt
  refine ⟨hidx, ?_⟩
  unfold generate_random_categorical_value
  rw [List.getD_eq_getElem _ _ hidx]
  exact List.getElem_mem hidx

/-- Witness for C9 at categories = ['A', 'B', 'C', 'D'] and u = 1/2. -/
theorem categorical_value_in_bounds_witness :
    Int.toNat ⌊(1/2 : ℚ) * ((["A", "B", "C", "D"] : List String).length : ℚ)⌋ <
      (["A", "B", "C", "D"] : List String).length ∧
    generate_random_categorical_value ["A", "B", "C", "D"] (1/2) ∈
      (["A", "B", "C", "D"] : List String) :=
  categorical_value_in_bounds ["A", "B", "C", "D"] (1/2) (by simp) (by norm_num) (by norm_num)

/-- Claim C8: every generated prediction entry yPred[i][j] of the notebook has
key list exactly the class list ['true', 'false'], and its two values d and
1 - d sum exactly to 1, for every model i < 3 and instance j < 100. -/
theorem yPred_entry_invariant (draw : ℕ → ℕ → ℚ) (i j : ℕ)
    (hi : i < 3) (hj : j < 100) :
    (((yPredGen draw 3 100).getD i []).getD j []).map Prod.fst = nbClasses ∧
    ((((yPredGen draw 3 100).getD i []).getD j []).map Prod.snd).sum = 1 := by
  have h1 : (yPredGen draw 3 100).getD i [] =
      (List.range 100).map fun k => yPredEntry (draw i k) :=
    getD_map_range _ 3 i hi []
  rw [h1, getD_map_range _ 100 j hj []]
  constructor
  · rfl
  · simp [yPredEntry]

/-- Witness for C8 at the constant draw 1/3, model 1, instance 5. -/
theorem yPred_entry_invariant_witness :
    (((yPredGen (fun _ _ => 1/3) 3 100).getD 1 []).getD 5 []).map Prod.fst = nbClasses ∧
    ((((yPredGen (fun _ _ => 1/3) 3 100).getD 1 []).getD 5 []).map Prod.snd).sum = 1 :=
  yPred_entry_invariant (fun _ _ => 1/3) 1 5 (by norm_num) (by norm_num)

/-- Claim C10: the collections the notebook passes to the widget have matching
lengths: len(x) = len(yTrue) = num_instances = 100, yPred has 3 models and
each model list has num_instances entries. -/
theorem notebook_lengths (fdraw cdraw tdraw : ℕ → ℚ) (pdraw : ℕ → ℕ → ℚ) :
    (xGen fdraw cdraw).length = num_instances ∧
    (yTrueGen tdraw).length = num_instances ∧
    (yPredGen pdraw 3 num_instances).length = 3 ∧
    (∀ m ∈ yPredGen pdraw 3 num_instances, m.length = num_instances) ∧
    num_instances = 100 := by
  refine ⟨by simp [xGen], by simp [yTrueGen], by simp [yPredGen], ?_, rfl⟩
  intro m hm
  simp only [yPredGen, List.mem_map, List.mem_range] at hm
  obtain ⟨i, hi, rfl⟩ := hm
  simp

/-! ## Feature Distribution Comparator (modelled from the spec) -/

/-- Modelled from the spec: lower end of the numeric bin range — the minimum
over the union of both groups' values for the feature (0 if no values). -/
def binLo (valsA valsB : List ℚ) : ℚ := ((valsA ++ valsB).toFinset.min).untop' 0

/-- Modelled from the spec: upper end of the numeric bin range — the maximum
over the union of both groups' values for the feature (0 if no values). -/
def binHi (valsA valsB : List ℚ) : ℚ := ((valsA ++ valsB).toFinset.max).unbot' 0

/-- Modelled from the spec: equal-width bin index of value v among nb bins
over [lo, hi]; a degenerate range (hi ≤ lo) collapses to a single bin, and
the closed top end of the range falls into the last bin. -/
def binIndex (lo hi : ℚ) (nb : ℕ) (v : ℚ) : ℕ :=
  if hi ≤ lo then 0
  else min (Int.toNat ⌊(v - lo) / (hi - lo) * (nb : ℚ)⌋) (nb - 1)

/-- Modelled from the spec: how many of a group's values fall in bin b. -/
def binCount (lo hi : ℚ) (nb : ℕ) (vals : List ℚ) (b : ℕ) : ℕ :=
  vals.countP fun v => binIndex lo hi nb v == b

/-- Modelled from the spec: normalized frequency of bin b — the bin's count
divided by the group's total instance count. -/
def binFreq (lo hi : ℚ) (nb : ℕ) (vals : List ℚ) (b : ℕ) : ℚ :=
  (binCount lo hi nb vals b : ℚ) / (vals.length : ℚ)

/-- Modelled from the spec: divergence score of a numeric feature — the sum
over the nb equal-width bins of |freqA(bin) - freqB(bin)|. -/
def numericScore (nb : ℕ) (valsA valsB : List ℚ) : ℚ :=
  ∑ b ∈ Finset.range nb,
    |binFreq (binLo valsA valsB) (binHi valsA valsB) nb valsA b -
      binFreq (binLo valsA valsB) (binHi valsA valsB) nb valsB b|

/-- Modelled from the spec: the observed categories of a categorical feature —
the union across both groups. -/
def catUnion (valsA valsB : List String) : Finset String := (valsA ++ valsB).toFinset

/-- Modelled from the spec: normalized frequency of category c in a group. -/
def catFreq (vals : List String) (c : String) : ℚ :=
  (vals.count c : ℚ) / (vals.length : ℚ)

/-- Modelled from the spec: divergence score of a categorical feature — the
sum over the union of observed categories of |freqA(c) - freqB(c)|. -/
def categoricalScore (valsA valsB : List String) : ℚ :=
  ∑ c ∈ catUnion valsA valsB, |catFreq valsA c - catFreq valsB c|

theorem binLo_comm (valsA valsB : List ℚ) : binLo valsA valsB = binLo valsB valsA := by
  unfold binLo
  rw [List.toFinset_append, List.toFinset_append, Finset.union_comm]

theorem binHi_comm (valsA valsB : List ℚ) : binHi valsA valsB = binHi valsB valsA := by
  unfold binHi
  rw [List.toFinset_append, List.toFinset_append, Finset.union_comm]

theorem catUnion_comm (valsA valsB : List String) :
    catUnion valsA valsB = catUnion valsB valsA := by
  unfold catUnion
  rw [List.toFinset_append, List.toFinset_append, Finset.union_comm]

/-- Claim C1: the divergence score is symmetric in the two groups (numeric and
categorical alike), and is zero exactly when the two groups have identical
normalized frequencies on every bin / category; in particular the score is 0
when the two groups are the same set of instances. -/
theorem divergence_symmetric_zero_iff :
    (∀ nb valsA valsB, numericScore nb valsA valsB = numericScore nb valsB valsA) ∧
    (∀ valsA valsB, categoricalScore valsA valsB = categoricalScore valsB valsA) ∧
    (∀ nb valsA valsB, numericScore nb valsA valsB = 0 ↔
      ∀ b ∈ Finset.range nb,
        binFreq (binLo valsA valsB) (binHi valsA valsB) nb valsA b =
          binFreq (binLo valsA valsB) (binHi valsA valsB) nb valsB b) ∧
    (∀ valsA valsB, categoricalScore valsA valsB = 0 ↔
      ∀ c ∈ catUnion valsA valsB, catFreq valsA c = catFreq valsB c) ∧
    (∀ nb vals, numericScore nb vals vals = 0) ∧
    (∀ vals, categoricalScore vals vals = 0) := by
  refine ⟨?_, ?_, ?_, ?_, ?_, ?_⟩
  · intro nb valsA valsB
    unfold numericScore
    rw [binLo_comm, binHi_comm]
    exact Finset.sum_congr rfl fun b _ => abs_sub_comm _ _
  · intro valsA valsB
    unfold categoricalScore
    rw [catUnion_comm]
    exact Finset.sum_congr rfl fun c _ => abs_sub_comm _ _
  · intro nb valsA valsB
    unfold numericScore
    rw [Finset.sum_eq_zero_iff_of_nonneg fun b _ => abs_nonneg _]
    simp only [abs_eq_zero, sub_eq_zero]
  · intro valsA valsB
    unfold categoricalScore
    rw [Finset.sum_eq_zero_iff_of_nonneg fun c _ => abs_nonneg _]
    simp only [abs_eq_zero, sub_eq_zero]
  · intro nb vals
    simp [numericScore]
  · intro vals
    simp [categoricalScore]

/-- Counting list elements by the image of a function, summed over any finite
set of targets, never exceeds the list length. -/
theorem sum_countP_le {α β : Type} [DecidableEq β] (f : α → β) (vals : List α)
    (s : Finset β) : ∑ b ∈ s, (vals.countP fun v => f v == b) ≤ vals.length := by
  induction vals with
  | nil => simp
  | cons v t ih =>
    simp only [List.countP_cons]
    rw [Finset.sum_add_distrib]
    have h1 : ∑ b ∈ s, (if (f v == b) = true then 1 else 0) ≤ 1 := by
      have he : ∀ b ∈ s, (if (f v == b) = true then 1 else 0) =
          if f v = b then 1 else 0 := by
        intro b _
        simp [beq_iff_eq]
      rw [Finset.sum_congr rfl he, Finset.sum_ite_eq]
      split <;> simp
    simp only [List.length_cons]
    omega

theorem sum_binCount_le (lo hi : ℚ) (nb : ℕ) (vals : List ℚ) :
    ∑ b ∈ Finset.range nb, binCount lo hi nb vals b ≤ vals.length :=
  sum_countP_le (binIndex lo hi nb) vals (Finset.range nb)

theorem sum_count_le (vals : List String) (s : Finset String) :
    ∑ c ∈ s, vals.count c ≤ vals.length := by
  have h : ∀ c, vals.count c = vals.countP fun v => (fun x => x) v == c := by
    intro c
    rfl
  rw [Finset.sum_congr rfl fun c _ => h c]
  exact sum_countP_le (fun x => x) vals s

theorem sum_binFreq_le_one (lo hi : ℚ) (nb : ℕ) (vals : List ℚ) (h : vals ≠ []) :
    ∑ b ∈ Finset.range nb, binFreq lo hi nb vals b ≤ 1 := by
  have hlen : 0 < vals.length := List.length_pos.mpr h
  have hlq : (0 : ℚ) < (vals.length : ℚ) := by exact_mod_cast hlen
  unfold binFreq
  rw [← Finset.sum_div, div_le_one hlq]
  exact_mod_cast sum_binCount_le lo hi nb vals

theorem sum_catFreq_le_one (vals : List String) (s : Finset String) (h : vals ≠ []) :
    ∑ c ∈ s, catFreq vals c ≤ 1 := by
  have hlen : 0 < vals.length := List.length_pos.mpr h
  have hlq : (0 : ℚ) < (vals.length : ℚ) := by exact_mod_cast hlen
  unfold catFreq
  rw [← Finset.sum_div, div_le_one hlq]
  exact_mod_cast sum_count_le vals s

/-- The L1 distance of two subprobability vectors is at most 2. -/
theorem sum_abs_diff_le_two {β : Type} (s : Finset β) (f g : β → ℚ)
    (hf0 : ∀ b ∈ s, 0 ≤ f b) (hg0 : ∀ b ∈ s, 0 ≤ g b)
    (hf1 : ∑ b ∈ s, f b ≤ 1) (hg1 : ∑ b ∈ s, g b ≤ 1) :
    ∑ b ∈ s, |f b - g b| ≤ 2 := by
  have h : ∀ b ∈ s, |f b - g b| ≤ f b + g b := by
    intro b hb
    rw [abs_le]
    constructor <;> linarith [hf0 b hb, hg0 b hb]
  calc ∑ b ∈ s, |f b - g b| ≤ ∑ b ∈ s, (f b + g b) := Finset.sum_le_sum h
    _ = (∑ b ∈ s, f b) + ∑ b ∈ s, g b := Finset.sum_add_distrib
    _ ≤ 2 := by linarith

/-- Claim C2: for non-empty groups, the divergence score — the sum over
bins / categories of |freqA - freqB| with freq the count divided by the
group's total instance count — lies in the closed interval [0, 2]. -/
theorem divergence_score_range (nb : ℕ) (valsA valsB : List ℚ)
    (catsA catsB : List String) (hA : valsA ≠ []) (hB : valsB ≠ [])
    (hcA : catsA ≠ []) (hcB : catsB ≠ []) :
    0 ≤ numericScore nb valsA valsB ∧ numericScore nb valsA valsB ≤ 2 ∧
    0 ≤ categoricalScore catsA catsB ∧ categoricalScore catsA catsB ≤ 2 := by
  refine ⟨Finset.sum_nonneg fun b _ => abs_nonneg _, ?_,
    Finset.sum_nonneg fun c _ => abs_nonneg _, ?_⟩
  · unfold numericScore
    refine sum_abs_diff_le_two _ _ _ (fun b _ => ?_) (fun b _ => ?_) ?_ ?_
    · exact div_nonneg (by positivity) (by positivity)
    · exact div_nonneg (by positivity) (by positivity)
    · exact sum_binFreq_le_one _ _ _ _ hA
    · exact sum_binFreq_le_one _ _ _ _ hB
  · unfold categoricalScore
    refine sum_abs_diff_le_two _ _ _ (fun c _ => ?_) (fun c _ => ?_) ?_ ?_
    · exact div_nonneg (by positivity) (by positivity)
    · exact div_nonneg (by positivity) (by positivity)
    · exact sum_catFreq_le_one _ _ hcA
    · exact sum_catFreq_le_one _ _ hcB

/-- Witness for C2 at the groups [1] and [10] (numeric, 10 bins) and the
groups ["A"] and ["B"] (categorical). -/
theorem divergence_score_range_witness :
    0 ≤ numericScore 10 [1] [10] ∧ numericScore 10 [1] [10] ≤ 2 ∧
    0 ≤ categoricalScore ["A"] ["B"] ∧ categoricalScore ["A"] ["B"] ≤ 2 :=
  divergence_score_range 10 [1] [10] ["A"] ["B"] (by simp) (by simp) (by simp) (by simp)

/-! ## Performance Scorer (modelled from the spec) -/

/-- Modelled from the spec: classification loss — 1 minus the probability the
prediction row assigns to the true label, or LabelNotFoundError when the true
label is not among the row's class labels. -/
def classificationLoss (pred : List (String × ℚ)) (label : String) :
    Except ManifoldError ℚ :=
  match pred.find? fun kv => kv.1 == label with
  | some kv => .ok (1 - kv.2)
  | none => .error .LabelNotFoundError

/-- Modelled from the spec: regression loss — squared error. -/
def regressionLoss (yhat y : ℚ) : ℚ := (yhat - y) ^ 2

/-- Claim C3: the scorer returns a non-negative scalar — classification loss
is 1 minus the probability of the true label and is non-negative whenever the
probabilities lie in [0, 1]; regression loss is the squared difference of
predicted and true value, always non-negative; and a true label absent from
the class-label set fails with LabelNotFoundError. -/
theorem scorer_contract :
    (∀ pred label kv, (pred.find? fun kv => kv.1 == label) = some kv →
      classificationLoss pred label = Except.ok (1 - kv.2)) ∧
    (∀ pred label q, (∀ kv ∈ pred, 0 ≤ kv.2 ∧ kv.2 ≤ 1) →
      classificationLoss pred label = Except.ok q → 0 ≤ q) ∧
    (∀ pred label, (∀ kv ∈ pred, kv.1 ≠ label) →
      classificationLoss pred label = Except.error ManifoldError.LabelNotFoundError) ∧
    (∀ yhat y, 0 ≤ regressionLoss yhat y ∧ regressionLoss yhat y = (yhat - y) ^ 2) := by
  refine ⟨?_, ?_, ?_, ?_⟩
  · intro pred label kv h
    unfold classificationLoss
    rw [h]
  · intro pred label q hbound hok
    cases hfind : pred.find? fun kv => kv.1 == label with
    | none =>
      unfold classificationLoss at hok
      rw [hfind] at hok
      simp at hok
    | some kv =>
      have heq : classificationLoss pred label = Except.ok (1 - kv.2) := by
        unfold classificationLoss
        rw [hfind]
      rw [heq] at hok
      injection hok with h2
      have hmem := List.mem_of_find?_eq_some hfind
      have := (hbound kv hmem).2
      linarith [h2 ▸ (by linarith : (0 : ℚ) ≤ 1 - kv.2)]
  · intro pred label hne
    unfold classificationLoss
    have h : (pred.find? fun kv => kv.1 == label) = none :=
      List.find?_eq_none.mpr fun kv hkv => by simpa using hne kv hkv
    rw [h]
  · intro yhat y
    exact ⟨sq_nonneg _, rfl⟩

/-! ## Group Partitioner (modelled from the spec) -/

/-- Modelled from the spec: insertion of a loss into a sorted list. -/
def insertSorted (x : ℚ) : List ℚ → List ℚ
  | [] => [x]
  | y :: ys => if x ≤ y then x :: y :: ys else y :: insertSorted x ys

/-- Modelled from the spec: the losses sorted ascending (insertion sort, a
stable sort, so the original index is the implicit secondary key). -/
def sortLosses (l : List ℚ) : List ℚ := l.foldr insertSorted []

/-- Modelled from the spec: the loss at the median cut point — the last
element of the nominal lower half of the sorted losses, at position
N / 2 - 1. -/
def cutLoss (losses : List ℚ) : ℚ :=
  (sortLosses losses).getD (losses.length / 2 - 1) 0

/-- Modelled from the spec: automatic median partitioning — the
better-performing group holds the instances whose loss is at most the loss at
the cut point (so ties at the cut point go to the lower-loss group), the
worse-performing group holds the rest. -/
def medianPartition (losses : List ℚ) : List ℕ × List ℕ :=
  ((List.range losses.length).filter fun i => decide (losses.getD i 0 ≤ cutLoss losses),
   (List.range losses.length).filter fun i => decide (cutLoss losses < losses.getD i 0))

theorem insertSorted_perm (x : ℚ) (l : List ℚ) : (insertSorted x l).Perm (x :: l) := by
  induction l with
  | nil => simp [insertSorted]
  | cons y ys ih =>
    unfold insertSorted
    split
    · exact List.Perm.refl _
    · exact (List.Perm.cons y ih).trans (List.Perm.swap x y ys)

theorem sortLosses_perm (l : List ℚ) : (sortLosses l).Perm l := by
  induction l with
  | nil => simp [sortLosses]
  | cons x t ih =>
    exact (insertSorted_perm x (sortLosses t)).trans (List.Perm.cons x ih)

theorem insertSorted_sorted (x : ℚ) : ∀ l : List ℚ, l.Sorted (· ≤ ·) →
    (insertSorted x l).Sorted (· ≤ ·)
  | [], _ => by simp [insertSorted]
  | y :: ys, h => by
    rw [List.sorted_cons] at h
    obtain ⟨hy, hys⟩ := h
    unfold insertSorted
    by_cases hxy : x ≤ y
    · rw [if_pos hxy, List.sorted_cons]
      refine ⟨?_, List.sorted_cons.mpr ⟨hy, hys⟩⟩
      intro b hb
      rcases List.mem_cons.mp hb with rfl | hb2
      · exact hxy
      · exact le_trans hxy (hy b hb2)
    · rw [if_neg hxy, List.sorted_cons]
      refine ⟨?_, insertSorted_sorted x ys hys⟩
      intro b hb
      have hb2 : b ∈ x :: ys := (insertSorted_perm x ys).mem_iff.mp hb
      rcases List.mem_cons.mp hb2 with rfl | hb3
      · exact le_of_not_le hxy
      · exact hy b hb3

theorem sortLosses_sorted (l : List ℚ) : (sortLosses l).Sorted (· ≤ ·) := by
  induction l with
  | nil => simp [sortLosses]
  | cons x t ih => exact insertSorted_sorted x (sortLosses t) ih

theorem cutLoss_mem (losses : List ℚ) (h : losses ≠ []) : cutLoss losses ∈ losses := by
  have hlen : 0 < losses.length := List.length_pos.mpr h
  have hidx : losses.length / 2 - 1 < (sortLosses losses).length := by
    rw [(sortLosses_perm losses).length_eq]
    omega
  unfold cutLoss
  rw [List.getD_eq_getElem _ _ hidx]
  exact (sortLosses_perm losses).mem_iff.mp (List.getElem_mem hidx)

/-- Counterexample to claim C4 as stated: for the losses [0, 1, 1, 1]
(N = 4 ≥ 2, not all losses equal) every instance's loss is at most the loss
at the median cut point, so the worse-performing group comes out empty. -/
theorem median_partition_counterexample :
    (0 : ℚ) ∈ ([0, 1, 1, 1] : List ℚ) ∧ (1 : ℚ) ∈ ([0, 1, 1, 1] : List ℚ) ∧
    2 ≤ ([0, 1, 1, 1] : List ℚ).length ∧
    (medianPartition [0, 1, 1, 1]).2 = [] := by
  decide

/-- Claim C4 (amended): when N ≥ 2 and some instance's loss lies strictly
above the loss at the median cut point (a condition that "not all losses
equal" does not guarantee), median partitioning yields two disjoint non-empty
groups covering all instances, every instance whose loss equals the loss at
the cut point is placed in the lower-loss group, and every member of the
lower-loss group has loss strictly below every member of the other group. -/
theorem median_partition_amended (losses : List ℚ)
    (hN : 2 ≤ losses.length)
    (habove : ∃ j, j < losses.length ∧ cutLoss losses < losses.getD j 0) :
    (medianPartition losses).1 ≠ [] ∧
    (medianPartition losses).2 ≠ [] ∧
    (∀ i, ¬(i ∈ (medianPartition losses).1 ∧ i ∈ (medianPartition losses).2)) ∧
    (∀ i, i < losses.length →
      (i ∈ (medianPartition losses).1 ∨ i ∈ (medianPartition losses).2)) ∧
    (∀ i, i < losses.length → losses.getD i 0 = cutLoss losses →
      i ∈ (medianPartition losses).1) ∧
    (∀ i ∈ (medianPartition losses).1, ∀ j ∈ (medianPartition losses).2,
      losses.getD i 0 < losses.getD j 0) := by
  have hmem : ∀ i, i ∈ (medianPartition losses).1 ↔
      (i < losses.length ∧ losses.getD i 0 ≤ cutLoss losses) := by
    intro i
    simp [medianPartition, List.mem_filter, List.mem_range]
  have hmem2 : ∀ i, i ∈ (medianPartition losses).2 ↔
      (i < losses.length ∧ cutLoss losses < losses.getD i 0) := by
    intro i
    simp [medianPartition, List.mem_filter, List.mem_range]
  refine ⟨?_, ?_, ?_, ?_, ?_, ?_⟩
  · have hne : losses ≠ [] := by
      intro hcon
      rw [hcon] at hN
      simp at hN
    obtain ⟨n, hn, hget⟩ := List.getElem_of_mem (cutLoss_mem losses hne)
    have : n ∈ (medianPartition losses).1 := by
      rw [hmem]
      refine ⟨hn, ?_⟩
      rw [List.getD_eq_getElem _ _ hn, hget]
    exact List.ne_nil_of_mem this
  · obtain ⟨j, hj, hgt⟩ := habove
    have : j ∈ (medianPartition losses).2 := by
      rw [hmem2]
      exact ⟨hj, hgt⟩
    exact List.ne_nil_of_mem this
  · intro i ⟨h1, h2⟩
    rw [hmem] at h1
    rw [hmem2] at h2
    exact absurd h2.2 (not_lt.mpr h1.2)
  · intro i hi
    rcases le_or_lt (losses.getD i 0) (cutLoss losses) with hle | hgt
    · exact Or.inl ((hmem i).mpr ⟨hi, hle⟩)
    · exact Or.inr ((hmem2 i).mpr ⟨hi, hgt⟩)
  · intro i hi heq
    exact (hmem i).mpr ⟨hi, le_of_eq heq⟩
  · intro i hi j hj
    rw [hmem] at hi
    rw [hmem2] at hj
    exact lt_of_le_of_lt hi.2 hj.2

/-- Witness for the amended C4 at the losses [1, 2]: the cut loss is 1 and the
instance with loss 2 lies strictly above it. -/
theorem median_partition_amended_witness :
    (medianPartition [1, 2]).1 ≠ [] ∧
    (medianPartition [1, 2]).2 ≠ [] ∧
    (∀ i, ¬(i ∈ (medianPartition [1, 2]).1 ∧ i ∈ (medianPartition [1, 2]).2)) ∧
    (∀ i, i < ([1, 2] : List ℚ).length →
      (i ∈ (medianPartition [1, 2]).1 ∨ i ∈ (medianPartition [1, 2]).2)) ∧
    (∀ i, i < ([1, 2] : List ℚ).length →
      ([1, 2] : List ℚ).getD i 0 = cutLoss [1, 2] →
      i ∈ (medianPartition [1, 2]).1) ∧
    (∀ i ∈ (medianPartition [1, 2]).1, ∀ j ∈ (medianPartition [1, 2]).2,
      ([1, 2] : List ℚ).getD i 0 < ([1, 2] : List ℚ).getD j 0) :=
  median_partition_amended [1, 2] (by norm_num) ⟨1, by norm_num, by decide⟩

/-- Modelled from the spec: the engine state the partitioner maintains — the
current two groups and the per-feature summaries. -/
structure EngineState where
  groups : List ℕ × List ℕ
  summaries : List (String × ℚ)

/-- Modelled from the spec: validation of a manual selection — the two
explicit index sets must be non-empty and disjoint; EmptyGroupError
otherwise. -/
def validateManualGroups (a b : List ℕ) : Except ManifoldError (List ℕ × List ℕ) :=
  if a = [] ∨ b = [] then .error .EmptyGroupError
  else if a.any fun i => decide (i ∈ b) then .error .EmptyGroupError
  else .ok (a, b)

/-- Modelled from the spec: applying a manual selection to the engine state —
on a validation error the prior state is returned unchanged and nothing is
recomputed, otherwise the groups are set and the summaries recomputed. -/
def applyManualSelection (recompute : List ℕ × List ℕ → List (String × ℚ))
    (st : EngineState) (a b : List ℕ) : EngineState × Option ManifoldError :=
  match validateManualGroups a b with
  | .error e => (st, some e)
  | .ok g => ({ groups := g, summaries := recompute g }, none)

/-- Claim C6: a manual selection whose index sets overlap, or with an empty
set, fails with EmptyGroupError and leaves the prior state unchanged — the
result does not depend on the recomputation function, so no recomputation is
performed. -/
theorem manual_selection_rejected (recompute : List ℕ × List ℕ → List (String × ℚ))
    (st : EngineState) (a b : List ℕ)
    (h : (∃ i, i ∈ a ∧ i ∈ b) ∨ a = [] ∨ b = []) :
    applyManualSelection recompute st a b = (st, some ManifoldError.EmptyGroupError) := by
  unfold applyManualSelection validateManualGroups
  by_cases hempty : a = [] ∨ b = []
  · rw [if_pos hempty]
  · rw [if_neg hempty]
    rcases h with ⟨i, hia, hib⟩ | he
    · have hany : (a.any fun i => decide (i ∈ b)) = true :=
        List.any_eq_true.mpr ⟨i, hia, decide_eq_true hib⟩
      rw [if_pos hany]
    · exact absurd he hempty

/-- Witness for C6: the same singleton index set on both sides, with a prior
state returned unchanged. -/
theorem manual_selection_rejected_witness :
    applyManualSelection (fun _ => []) ⟨([0], [1]), []⟩ [1] [1] =
      (⟨([0], [1]), []⟩, some ManifoldError.EmptyGroupError) :=
  manual_selection_rejected (fun _ => []) ⟨([0], [1]), []⟩ [1] [1]
    (Or.inl ⟨1, by simp, by simp⟩)

/-! ## Record Normalizer (modelled from the spec) -/

/-- Modelled from the spec: the class-label key set of one prediction row. -/
def classKeys (row : List (String × ℚ)) : Finset String := (row.map Prod.fst).toFinset

/-- Modelled from the spec: the three inputs agree on the instance count N. -/
def lengthsMatch (x : List (List (String × Value)))
    (p : List (List (List (String × ℚ)))) (g : List String) : Bool :=
  (g.length == x.length) && p.all fun m => m.length == x.length

/-- Modelled from the spec: the class-label sets are identical across all
prediction rows of all prediction sources. -/
def classSetsAgree (p : List (List (List (String × ℚ)))) : Bool :=
  p.all fun m => m.all fun row =>
    p.all fun m2 => m2.all fun row2 => decide (classKeys row = classKeys row2)

/-- Whether a feature value is numeric. -/
def Value.isNum : Value → Bool
  | .num _ => true
  | .cat _ => false

/-- Modelled from the spec: the values one feature column takes across rows. -/
def columnVals (x : List (List (String × Value))) (name : String) : List Value :=
  x.filterMap fun row => (row.find? fun kv => kv.1 == name).map Prod.snd

/-- Modelled from the spec: feature typing is unambiguous — no feature column
mixes numeric and non-numeric values. -/
def typesConsistent (x : List (List (String × Value))) : Bool :=
  ((x.headD []).map Prod.fst).all fun name =>
    (columnVals x name).all Value.isNum || (columnVals x name).all fun v => !v.isNum

/-- Modelled from the spec: the Record Normalizer — checks lengths and class
sets (SchemaMismatchError), then feature typing (TypeInferenceError), and on
success produces one normalized record per instance. -/
def normalize (x : List (List (String × Value)))
    (p : List (List (List (String × ℚ)))) (g : List String) :
    Except ManifoldError
      (List ((List (String × Value)) × List (List (String × ℚ)) × String)) :=
  if !(lengthsMatch x p g && classSetsAgree p) then .error .SchemaMismatchError
  else if !typesConsistent x then .error .TypeInferenceError
  else .ok ((List.range x.length).map fun j =>
    (x.getD j [], p.map fun m => m.getD j [], g.getD j ""))

/-- Claim C7: the normalizer fails with SchemaMismatchError exactly when the
collections' lengths differ or the class-label sets disagree across
prediction sources; on success (valid input) the output instance count
equals the common length N of all three inputs. -/
theorem normalizer_contract :
    (∀ x p g, normalize x p g = Except.error ManifoldError.SchemaMismatchError ↔
      (lengthsMatch x p g = false ∨ classSetsAgree p = false)) ∧
    (∀ x p g ds, normalize x p g = Except.ok ds →
      ds.length = x.length ∧ g.length = x.length ∧ ∀ m ∈ p, m.length = x.length) ∧
    (∀ x p g, lengthsMatch x p g = true → classSetsAgree p = true →
      typesConsistent x = true →
      normalize x p g = Except.ok ((List.range x.length).map fun j =>
        (x.getD j [], p.map fun m => m.getD j [], g.getD j ""))) := by
  refine ⟨?_, ?_, ?_⟩
  · intro x p g
    cases hL : lengthsMatch x p g <;> cases hC : classSetsAgree p <;>
      cases hT : typesConsistent x <;> simp [normalize, hL, hC, hT]
  · intro x p g ds h
    cases hL : lengthsMatch x p g <;> cases hC : classSetsAgree p <;>
      cases hT : typesConsistent x <;> simp [normalize, hL, hC, hT] at h
    have hlen : g.length = x.length ∧ ∀ m ∈ p, m.length = x.length := by
      have hL2 := hL
      simp only [lengthsMatch, Bool.and_eq_true, beq_iff_eq, List.all_eq_true] at hL2
      exact hL2
    subst h
    exact ⟨by simp, hlen.1, hlen.2⟩
  · intro x p g hL hC hT
    simp [normalize, hL, hC, hT]

/-! ## The worked example of the spec -/

/-- Claim C5: the spec's worked example — one prediction source over classes
a and b with rows [a: 0.9, b: 0.1] and [a: 0.1, b: 0.9] and ground truth a
for both instances gives losses 0.1 and 0.9; the median split puts instance 0
in the better group and instance 1 in the worse one; and feature f0 (values 1
and 10) scores exactly 2 under a 2-bin histogram. -/
theorem worked_example :
    classificationLoss [("a", 0.9), ("b", 0.1)] "a" = Except.ok 0.1 ∧
    classificationLoss [("a", 0.1), ("b", 0.9)] "a" = Except.ok 0.9 ∧
    medianPartition [0.1, 0.9] = ([0], [1]) ∧
    numericScore 2 [1] [10] = 2 := by
  have hcut : cutLoss [0.1, 0.9] = 0.1 := by
    have h : (0.1 : ℚ) ≤ 0.9 := by norm_num
    simp [cutLoss, sortLosses, insertSorted, h]
  refine ⟨?_, ?_, ?_, ?_⟩
  · simp [classificationLoss]
    norm_num
  · simp [classificationLoss]
    norm_num
  · have h1 : ((0.1 : ℚ) ≤ 0.1) := le_refl _
    have h2 : ¬((0.9 : ℚ) ≤ 0.1) := by norm_num
    simp [medianPartition, hcut, List.range_succ, List.filter, h1, h2]
    norm_num
  · have hlo : binLo [1] [10] = 1 := by decide
    have hhi : binHi [1] [10] = 10 := by decide
    have hb1 : binIndex 1 10 2 1 = 0 := by norm_num [binIndex]
    have hb10 : binIndex 1 10 2 10 = 1 := by norm_num [binIndex]
    unfold numericScore
    rw [hlo, hhi, Finset.sum_range_succ, Finset.sum_range_succ, Finset.sum_range_zero]
    unfold binFreq binCount
    simp [List.countP_cons, List.countP_nil, hb1, hb10]
    norm_num

end Manifold
